/-
Verification of the `between` crate (dashed/between): a shallow embedding of
`src/lib.rs` into Lean 4, together with theorems settling the specification
claims about the `Between` alphabet structure and its
`between` / `after` / `before` operations.

Modelling conventions:
- Rust `String` / `Vec<char>` values are modelled as `List Char`; Lean's
  `Char` is a Unicode scalar value exactly like Rust's `char`.
- Rust's `String` comparison is byte-wise over UTF-8, which coincides with
  code-point lexicographic order; `Vec<char>` comparison is code-point
  lexicographic.  Both are modelled by the single Boolean order `lexLt`.
- Rust `String::len` counts UTF-8 bytes; it is modelled by `byteLen`
  (`Char.utf8Size` is exactly the UTF-8 encoded size of a scalar value).
- The floating-point midpoint `((a as f64 + b as f64) / 2.0).round() as usize`
  is modelled by `(a + b + 1) / 2`: ranks are indices into a list of distinct
  `Char`s, hence far below 2^53, so the `f64` arithmetic is exact and
  `.round()` (round half away from zero on the non-negative value
  `(a+b)/2`) yields exactly `(a + b + 1) / 2`.
- `self.chars[char_position]` (a panicking index in Rust) is modelled by
  `List.getD` with default `B.low`; in every reachable state the position is
  in bounds, so the default is never consulted there.
-/
import Mathlib

set_option maxHeartbeats 1000000

/-- Strict lexicographic (code-point) order on character lists, as a Boolean
function.  Matches Rust's `Ord` on `String` and on `Vec<char>`. -/
def lexLt : List Char → List Char → Bool
  | [], [] => false
  | [], _ :: _ => true
  | _ :: _, [] => false
  | a :: as, b :: bs => a < b || (a == b && lexLt as bs)

/-- Rust `s.trim_end_matches(lowChar)`: remove every trailing occurrence of
`lowChar`. -/
def trimEnd (lowChar : Char) (s : List Char) : List Char :=
  ((s.reverse).dropWhile (fun c => c == lowChar)).reverse

/-- Rust `String::len`: the UTF-8 byte length of a string. -/
def byteLen (s : List Char) : Nat :=
  (s.map Char.utf8Size).sum

/-- The `Between` struct of `src/lib.rs`.  The Rust struct additionally
caches `chars_set` (a `HashSet` view of `chars`) and `chars_lookup` (the
rank map `chars[i] ↦ i`); both are determined by `chars` and are modelled
directly by `List.contains` and `List.indexOf` on `chars`. -/
structure Between where
  chars : List Char
  low : Char
  high : Char
deriving Repr, DecidableEq

/-- Model of `Between::new`: deduplicate and sort the given characters, take the
first as `low` and the last as `high`.  (Rust panics when fewer than two
distinct characters remain; theorems about constructed alphabets therefore
carry the `2 ≤ length` hypothesis, packaged in `Between.WF`.) -/
def Between.new (cs : List Char) : Between :=
  let sorted := List.insertionSort (· ≤ ·) cs.dedup
  { chars := sorted, low := sorted.headI, high := sorted.getLastI }

/-- The default character set of `impl Default for Between`, exactly the
string literal from the source. -/
def defaultChars : List Char :=
  "!0123456789ABCDEFGHIJKLMNOPQRSTUVWXYZ_abcdefghijklmnopqrstuvwxyz~".toList

/-- Model of `Between::init` / `Default::default`. -/
def Between.init : Between :=
  Between.new defaultChars

/-- Model of `Between::valid`: a string is valid iff it is non-empty and all its
characters belong to the character set. -/
def Between.valid (B : Between) (s : List Char) : Bool :=
  !s.isEmpty && s.all (fun c => B.chars.contains c)

/-- The candidate-rank selection of the construction loop
(`src/lib.rs` lines 201–232): if there is room between the two ranks
(`a + 1 < b`) or the index has reached `guard_max_len`, take the rounded
midpoint of the ranks, otherwise take `this`'s rank `a`. -/
def candPos (a b gml idx : Nat) : Nat :=
  if a + 1 < b || decide (gml ≤ idx) then (a + b + 1) / 2 else a

/-- The `while index <= guard` construction loop of `Between::between`,
with the remaining iteration budget made explicit as `fuel` (the loop is
entered with `fuel = guard + 1`, matching indices `0, …, guard`). -/
def betweenGo (B : Between) (thisC thatC : List Char) (gml : Nat) :
    Nat → Nat → List Char → Option (List Char)
  | 0, _, _ => none
  | fuel + 1, index, acc =>
    let a := B.chars.indexOf (thisC.getD index B.low)
    let b := B.chars.indexOf (thatC.getD index B.high)
    let c := B.chars.getD (candPos a b gml index) B.low
    let acc2 := acc ++ [c]
    if lexLt thisC acc2 && lexLt acc2 thatC && c != B.low then some acc2
    else betweenGo B thisC thatC gml fuel (index + 1) acc2

/-- Model of `Between::between`: trim trailing `low` characters from both inputs,
reject unless `this < that`, `this` is empty or valid, and `that` is valid,
then run the construction loop.  `guard` and `guard_max_len` are computed
with Rust's `String::len`, i.e. UTF-8 byte lengths of the trimmed inputs. -/
def Between.between (B : Between) (thisS thatS : List Char) : Option (List Char) :=
  let t := trimEnd B.low thisS
  let u := trimEnd B.low thatS
  if !lexLt t u || (!t.isEmpty && !B.valid t) || !B.valid u then none
  else
    betweenGo B t u (max (byteLen t) (byteLen u)) (byteLen t + byteLen u + 1) 0 []

/-- Model of `Between::after`, i.e. `between(s, high)`. -/
def Between.after (B : Between) (s : List Char) : Option (List Char) :=
  B.between s [B.high]

/-- Model of `Between::before`, i.e. `between(low, s)`. -/
def Between.before (B : Between) (s : List Char) : Option (List Char) :=
  B.between [B.low] s

/-- Well-formedness of a `Between` value: exactly the state produced by
`Between::new` from at least two distinct characters — a strictly sorted
(hence duplicate-free) character list of length at least 2, with `low` its
first and `high` its last element. -/
def Between.WF (B : Between) : Prop :=
  List.Sorted (· < ·) B.chars ∧ 2 ≤ B.chars.length ∧
    B.low = B.chars.headI ∧ B.high = B.chars.getLastI

/-- The spec's midpoint `round((a + b) / 2)` over natural ranks, with halves
rounded away from zero (the behaviour of `f64::round`). -/
def specMid (a b : Nat) : Nat :=
  if (a + b) % 2 = 0 then (a + b) / 2 else (a + b) / 2 + 1

/-- Variant of `Between.between` following the claim's reading of the loop
guard: the iteration ceiling `guard` is `len(this) + len(that)` counted in
code points (characters) rather than in UTF-8 bytes.  Everything else is
unchanged. -/
def betweenCpGuard (B : Between) (thisS thatS : List Char) : Option (List Char) :=
  let t := trimEnd B.low thisS
  let u := trimEnd B.low thatS
  if !lexLt t u || (!t.isEmpty && !B.valid t) || !B.valid u then none
  else
    betweenGo B t u (max (byteLen t) (byteLen u)) (t.length + u.length + 1) 0 []

/-- Variant of `Between.between` following the claim's reading of
`guard_max_len`: the "length of the longer of the two trimmed inputs" is
counted in code points (characters) rather than in UTF-8 bytes.  Everything
else is unchanged. -/
def betweenCpMaxLen (B : Between) (thisS thatS : List Char) : Option (List Char) :=
  let t := trimEnd B.low thisS
  let u := trimEnd B.low thatS
  if !lexLt t u || (!t.isEmpty && !B.valid t) || !B.valid u then none
  else
    betweenGo B t u (max t.length u.length) (byteLen t + byteLen u + 1) 0 []

/-! ### Helper lemmas about `lexLt` -/

lemma lexLt_nil_right (l : List Char) : lexLt l [] = false := by
  cases l <;> rfl

lemma lexLt_nil_left {l : List Char} (h : l ≠ []) : lexLt [] l = true := by
  cases l with
  | nil => exact absurd rfl h
  | cons a as => rfl

lemma ne_nil_of_lexLt {u l : List Char} (h : lexLt u l = true) : l ≠ [] := by
  intro hl
  subst hl
  rw [lexLt_nil_right] at h
  exact Bool.false_ne_true h

lemma lexLt_cons_cons {a b : Char} {as bs : List Char} :
    lexLt (a :: as) (b :: bs) = true ↔ a < b ∨ (a = b ∧ lexLt as bs = true) := by
  simp [lexLt, Bool.or_eq_true, Bool.and_eq_true, decide_eq_true_iff, beq_iff_eq]

lemma lexLt_append_right {s v : List Char} (w : List Char) (h : lexLt s v = true) :
    lexLt s (v ++ w) = true := by
  induction s generalizing v with
  | nil =>
    have hv : v ≠ [] := ne_nil_of_lexLt h
    cases v with
    | nil => exact absurd rfl hv
    | cons b bs => rfl
  | cons a as ih =>
    cases v with
    | nil => exact absurd (ne_nil_of_lexLt h) (fun hne => hne rfl)
    | cons b bs =>
      rw [List.cons_append]
      rw [lexLt_cons_cons] at h ⊢
      rcases h with hlt | ⟨heq, hrec⟩
      · exact Or.inl hlt
      · exact Or.inr ⟨heq, ih hrec⟩

lemma getLast?_cons_of_ne_nil {a : Char} {l : List Char} (h : l ≠ []) :
    (a :: l).getLast? = l.getLast? := by
  cases l with
  | nil => exact absurd rfl h
  | cons b bs => exact List.getLast?_cons_cons

lemma lexLt_replicate_left (lowc : Char) (k : Nat) :
    ∀ {s : List Char}, s ≠ [] → (∀ c ∈ s, lowc ≤ c) →
      (∀ c, s.getLast? = some c → c ≠ lowc) →
      lexLt (List.replicate k lowc) s = true := by
  induction k with
  | zero => intro s hne _ _; exact lexLt_nil_left hne
  | succ k ih =>
    intro s hne hmem hlast
    cases s with
    | nil => exact absurd rfl hne
    | cons c s2 =>
      rw [List.replicate_succ, lexLt_cons_cons]
      have hlc : lowc ≤ c := hmem c (List.mem_cons_self c s2)
      rcases lt_or_eq_of_le hlc with hlt | heq
      · exact Or.inl hlt
      · refine Or.inr ⟨heq, ?_⟩
        have hs2 : s2 ≠ [] := by
          intro h2
          subst h2
          exact hlast c rfl heq.symm
        exact ih hs2 (fun c2 h2 => hmem c2 (List.mem_cons_of_mem c h2))
          (fun c2 h2 => hlast c2 ((getLast?_cons_of_ne_nil hs2).trans h2))

lemma lexLt_append_replicate_left (lowc : Char) (k : Nat) :
    ∀ {u s : List Char}, (∀ c ∈ s, lowc ≤ c) →
      (∀ c, s.getLast? = some c → c ≠ lowc) → lexLt u s = true →
      lexLt (u ++ List.replicate k lowc) s = true := by
  intro u
  induction u with
  | nil =>
    intro s hmem hlast h
    rw [List.nil_append]
    exact lexLt_replicate_left lowc k (ne_nil_of_lexLt h) hmem hlast
  | cons a u2 ih =>
    intro s hmem hlast h
    cases s with
    | nil => exact absurd (ne_nil_of_lexLt h) (fun hne => hne rfl)
    | cons b s2 =>
      rw [List.cons_append]
      rw [lexLt_cons_cons] at h ⊢
      rcases h with hlt | ⟨heq, hrec⟩
      · exact Or.inl hlt
      · refine Or.inr ⟨heq, ?_⟩
        have hs2 : s2 ≠ [] := ne_nil_of_lexLt hrec
        exact ih (fun c2 h2 => hmem c2 (List.mem_cons_of_mem b h2))
          (fun c2 h2 => hlast c2 ((getLast?_cons_of_ne_nil hs2).trans h2)) hrec

/-! ### Helper lemmas about `trimEnd` -/

lemma dropWhile_head?_pred {p : Char → Bool} :
    ∀ {l : List Char} {c : Char}, (l.dropWhile p).head? = some c → p c = false := by
  intro l
  induction l with
  | nil => intro c h; simp [List.dropWhile] at h
  | cons a as ih =>
    intro c h
    rw [List.dropWhile_cons] at h
    by_cases hp : p a = true
    · rw [if_pos hp] at h
      exact ih h
    · rw [if_neg hp] at h
      have hca : c = a := by simpa using h.symm
      rw [hca]
      exact Bool.not_eq_true _ |>.mp hp

lemma trimEnd_getLast?_ne (lowc : Char) (s : List Char) {c : Char}
    (h : (trimEnd lowc s).getLast? = some c) : c ≠ lowc := by
  unfold trimEnd at h
  rw [List.getLast?_reverse] at h
  have hp := dropWhile_head?_pred h
  simpa using hp

lemma trimEnd_eq_append (lowc : Char) (s : List Char) :
    ∃ k, s = trimEnd lowc s ++ List.replicate k lowc := by
  refine ⟨(s.reverse.takeWhile (fun c => c == lowc)).length, ?_⟩
  have htake : s.reverse.takeWhile (fun c => c == lowc)
      = List.replicate (s.reverse.takeWhile (fun c => c == lowc)).length lowc := by
    rw [List.eq_replicate_iff]
    refine ⟨rfl, ?_⟩
    intro b hb
    have hp := List.mem_takeWhile_imp hb
    simpa using hp
  conv_lhs =>
    rw [← List.reverse_reverse s,
      ← List.takeWhile_append_dropWhile (fun c => c == lowc) s.reverse]
  rw [List.reverse_append, htake, List.reverse_replicate]
  simp [trimEnd]

lemma trimEnd_append_replicate (lowc : Char) (s : List Char) (k : Nat) :
    trimEnd lowc (s ++ List.replicate k lowc) = trimEnd lowc s := by
  unfold trimEnd
  rw [List.reverse_append, List.reverse_replicate]
  congr 1
  induction k with
  | zero => rw [List.replicate, List.nil_append]
  | succ k ih =>
    rw [List.replicate_succ, List.cons_append, List.dropWhile_cons]
    simp only [beq_self_eq_true, if_true]
    exact ih

lemma trimEnd_replicate (lowc : Char) (k : Nat) :
    trimEnd lowc (List.replicate k lowc) = [] := by
  have h := trimEnd_append_replicate lowc [] k
  rw [List.nil_append] at h
  rw [h]
  rfl

lemma trimEnd_nil (lowc : Char) : trimEnd lowc [] = [] := rfl

/-! ### Helper lemmas about `Between.valid` and well-formed alphabets -/

lemma valid_iff (B : Between) (s : List Char) :
    B.valid s = true ↔ s ≠ [] ∧ ∀ c ∈ s, c ∈ B.chars := by
  simp only [Between.valid, Bool.and_eq_true, Bool.not_eq_true', List.all_eq_true]
  constructor
  · rintro ⟨h1, h2⟩
    refine ⟨by simpa [List.isEmpty_iff] using h1, fun c hc => ?_⟩
    have := h2 c hc
    simpa [List.elem_iff] using this
  · rintro ⟨h1, h2⟩
    refine ⟨by simpa [List.isEmpty_iff] using h1, fun c hc => ?_⟩
    simpa [List.elem_iff] using h2 c hc

lemma wf_chars_ne_nil {B : Between} (h : B.WF) : B.chars ≠ [] := by
  intro hc
  have h2 := h.2.1
  rw [hc] at h2
  simp at h2

lemma wf_low_mem {B : Between} (h : B.WF) : B.low ∈ B.chars := by
  have hne := wf_chars_ne_nil h
  obtain ⟨_, _, hl, _⟩ := h
  cases hc : B.chars with
  | nil => exact absurd hc hne
  | cons a as =>
    rw [hl, hc]
    exact List.mem_cons_self a as

lemma wf_high_mem {B : Between} (h : B.WF) : B.high ∈ B.chars := by
  have hne := wf_chars_ne_nil h
  obtain ⟨_, _, _, hh⟩ := h
  rw [hh, List.getLastI_eq_getLast?, List.getLast?_eq_getLast B.chars hne]
  exact List.getLast_mem hne

lemma wf_low_le {B : Between} (h : B.WF) : ∀ c ∈ B.chars, B.low ≤ c := by
  obtain ⟨hs, _, hl, _⟩ := h
  intro c hc
  cases hcc : B.chars with
  | nil => rw [hcc] at hc; exact absurd hc (List.not_mem_nil c)
  | cons a as =>
    rw [hl, hcc, List.headI]
    rw [hcc] at hc hs
    rcases List.mem_cons.mp hc with h1 | h1
    · exact le_of_eq h1.symm
    · exact le_of_lt (List.rel_of_sorted_cons hs c h1)

lemma wf_indexOf_low {B : Between} (h : B.WF) : B.chars.indexOf B.low = 0 := by
  have hne := wf_chars_ne_nil h
  obtain ⟨_, _, hl, _⟩ := h
  cases hcc : B.chars with
  | nil => exact absurd hcc hne
  | cons a as =>
    rw [hl, hcc, List.headI]
    exact List.indexOf_cons_self a as

lemma sorted_indexOf_getLastI :
    ∀ {l : List Char}, List.Sorted (· < ·) l → l ≠ [] →
      l.indexOf l.getLastI = l.length - 1 := by
  intro l
  induction l with
  | nil => intro _ hne; exact absurd rfl hne
  | cons a as ih =>
    intro hs _
    cases as with
    | nil => simp [List.getLastI, List.indexOf_cons_self]
    | cons b t =>
      have hlast : (a :: b :: t).getLastI = (b :: t).getLastI := by
        rw [List.getLastI_eq_getLast?, List.getLastI_eq_getLast?,
          List.getLast?_cons_cons]
      have hmem : (b :: t).getLastI ∈ b :: t := by
        have hne2 : (b :: t) ≠ ([] : List Char) := by simp
        rw [List.getLastI_eq_getLast?, List.getLast?_eq_getLast _ hne2]
        exact List.getLast_mem hne2
      have hne3 : (b :: t).getLastI ≠ a :=
        ne_of_gt (List.rel_of_sorted_cons hs _ hmem)
      rw [hlast, List.indexOf_cons_ne _ (Ne.symm hne3),
        ih (List.Sorted.of_cons hs) (by simp)]
      simp

lemma wf_indexOf_high {B : Between} (h : B.WF) :
    B.chars.indexOf B.high = B.chars.length - 1 := by
  have hne := wf_chars_ne_nil h
  obtain ⟨hs, _, _, hh⟩ := h
  rw [hh]
  exact sorted_indexOf_getLastI hs hne

lemma wf_low_lt_high {B : Between} (h : B.WF) : B.low < B.high := by
  have hne := wf_chars_ne_nil h
  obtain ⟨hs, h2, hl, hh⟩ := h
  cases hcc : B.chars with
  | nil => exact absurd hcc hne
  | cons a as =>
    cases as with
    | nil => rw [hcc] at h2; simp at h2
    | cons b t =>
      have hmem : (b :: t).getLastI ∈ b :: t := by
        have hne2 : (b :: t) ≠ ([] : List Char) := by simp
        rw [List.getLastI_eq_getLast?, List.getLast?_eq_getLast _ hne2]
        exact List.getLast_mem hne2
      rw [hl, hh, hcc, List.headI]
      have hlast : (a :: b :: t).getLastI = (b :: t).getLastI := by
        rw [List.getLastI_eq_getLast?, List.getLastI_eq_getLast?,
          List.getLast?_cons_cons]
      rw [hlast]
      rw [hcc] at hs
      exact List.rel_of_sorted_cons hs _ hmem

lemma getD_mem {l : List Char} {d : Char} (hd : d ∈ l) (i : Nat) :
    l.getD i d ∈ l := by
  by_cases hi : i < l.length
  · rw [List.getD_eq_getElem?_getD, List.getElem?_eq_getElem hi]
    exact List.getElem_mem hi
  · rw [List.getD_eq_default l d (le_of_not_lt hi)]
    exact hd

/-! ### Helper lemmas about the construction loop -/

lemma betweenGo_some {B : Between} {tC uC : List Char} {gml : Nat}
    (hlowmem : B.low ∈ B.chars) :
    ∀ fuel idx acc s, (∀ c ∈ acc, c ∈ B.chars) →
      betweenGo B tC uC gml fuel idx acc = some s →
      lexLt tC s = true ∧ lexLt s uC = true ∧ (∀ c ∈ s, c ∈ B.chars) ∧
        (∀ c, s.getLast? = some c → c ≠ B.low) ∧ s ≠ [] := by
  intro fuel
  induction fuel with
  | zero =>
    intro idx acc s hacc h
    simp [betweenGo] at h
  | succ fuel ih =>
    intro idx acc s hacc h
    rw [betweenGo] at h
    split at h
    · rename_i hcond
      have hs : acc ++ [B.chars.getD
          (candPos (B.chars.indexOf (tC.getD idx B.low))
            (B.chars.indexOf (uC.getD idx B.high)) gml idx) B.low] = s :=
        Option.some.inj h
      rw [Bool.and_eq_true, Bool.and_eq_true] at hcond
      obtain ⟨⟨h1, h2⟩, h3⟩ := hcond
      subst hs
      refine ⟨h1, h2, ?_, ?_, by simp⟩
      · intro c hc
        rcases List.mem_append.mp hc with hc1 | hc1
        · exact hacc c hc1
        · rw [List.mem_singleton.mp hc1]
          exact getD_mem hlowmem _
      · intro c hc
        rw [List.getLast?_concat] at hc
        have hcd := Option.some.inj hc
        rw [← hcd]
        exact bne_iff_ne.mp h3
    · refine ih (idx + 1) _ s ?_ h
      intro c hc
      rcases List.mem_append.mp hc with hc1 | hc1
      · exact hacc c hc1
      · rw [List.mem_singleton.mp hc1]
        exact getD_mem hlowmem _

lemma betweenGo_length {B : Between} {tC uC : List Char} {gml : Nat} :
    ∀ fuel idx acc s, betweenGo B tC uC gml fuel idx acc = some s →
      s.length ≤ acc.length + fuel := by
  intro fuel
  induction fuel with
  | zero => intro idx acc s h; simp [betweenGo] at h
  | succ fuel ih =>
    intro idx acc s h
    rw [betweenGo] at h
    split at h
    · have hs := Option.some.inj h
      rw [← hs, List.length_append]
      simp
    · have := ih (idx + 1) _ s h
      simp at this
      omega

lemma between_some_inv {B : Between} {t u s : List Char}
    (h : B.between t u = some s) :
    lexLt (trimEnd B.low t) (trimEnd B.low u) = true ∧
      (trimEnd B.low t = [] ∨ B.valid (trimEnd B.low t) = true) ∧
      B.valid (trimEnd B.low u) = true ∧
      betweenGo B (trimEnd B.low t) (trimEnd B.low u)
        (max (byteLen (trimEnd B.low t)) (byteLen (trimEnd B.low u)))
        (byteLen (trimEnd B.low t) + byteLen (trimEnd B.low u) + 1) 0 []
        = some s := by
  rw [Between.between] at h
  split at h
  · exact absurd h (by simp)
  · rename_i hcond
    simp only [Bool.or_eq_true, Bool.and_eq_true, Bool.not_eq_true', not_or,
      List.isEmpty_iff, Decidable.not_and_iff_or_not, not_not,
      Bool.not_eq_false] at hcond
    obtain ⟨⟨h1, h2⟩, h3⟩ := hcond
    exact ⟨h1, by tauto, h3, h⟩

lemma new_wf {cs : List Char} (h : 2 ≤ cs.dedup.length) : (Between.new cs).WF := by
  refine ⟨?_, ?_, rfl, rfl⟩
  · have hsle : List.Sorted (· ≤ ·) (List.insertionSort (· ≤ ·) cs.dedup) :=
      List.sorted_insertionSort _ _
    have hnd : (List.insertionSort (· ≤ ·) cs.dedup).Nodup :=
      ((List.perm_insertionSort (· ≤ ·) cs.dedup).nodup_iff).mpr (List.nodup_dedup cs)
    exact List.Sorted.lt_of_le hsle hnd
  · show 2 ≤ (List.insertionSort (· ≤ ·) cs.dedup).length
    rw [(List.perm_insertionSort (· ≤ ·) cs.dedup).length_eq]
    exact h

/-- A small concrete alphabet over `{'0','1'}`, used by witnesses. -/
def B01 : Between := Between.new ['0', '1']

/-- The two-symbol Greek alphabet `{α, β}` (each character occupies two
UTF-8 bytes), used to separate byte lengths from code-point counts. -/
def Bgreek : Between := Between.new ['α', 'β']

/-- C1: for every alphabet built from at least two distinct characters and
all input strings `this` and `that`, if `between this that` returns a string
`s`, then `this < s < that` under code-point lexicographic comparison of the
original (untrimmed) inputs, and every character of `s` is drawn from the
alphabet's symbol set. -/
theorem c1_between_strictly_between {B : Between} (hWF : B.WF)
    (thisS thatS s : List Char) (h : B.between thisS thatS = some s) :
    lexLt thisS s = true ∧ lexLt s thatS = true ∧ ∀ c ∈ s, c ∈ B.chars := by
  obtain ⟨hlt, hvt, hvu, hloop⟩ := between_some_inv h
  obtain ⟨hts, hsu, hmem, hlast, hne⟩ :=
    betweenGo_some (wf_low_mem hWF) _ 0 [] s (by intro c hc; simp at hc) hloop
  obtain ⟨k, hk⟩ := trimEnd_eq_append B.low thisS
  obtain ⟨m, hm⟩ := trimEnd_eq_append B.low thatS
  refine ⟨?_, ?_, hmem⟩
  · rw [hk]
    exact lexLt_append_replicate_left B.low k
      (fun c hc => wf_low_le hWF c (hmem c hc)) hlast hts
  · rw [hm]
    exact lexLt_append_right _ hsu

theorem c1_between_strictly_between_witness :
    B01.WF ∧ B01.between ['0'] ['1'] = some ['0', '1'] ∧
      (lexLt ['0'] ['0', '1'] = true ∧ lexLt ['0', '1'] ['1'] = true ∧
        ∀ c ∈ ['0', '1'], c ∈ B01.chars) :=
  ⟨⟨by decide, by decide, rfl, rfl⟩, by decide,
    c1_between_strictly_between ⟨by decide, by decide, rfl, rfl⟩ ['0'] ['1']
      ['0', '1'] (by decide)⟩

/-- C2: for every alphabet built from at least two distinct characters,
`between this that` returns `None` whenever, on the given (untrimmed)
inputs, `this ≥ that` lexicographically, or `that` is invalid, or `this` is
non-empty and invalid.  (The code tests these conditions only after
trimming trailing low symbols, but the conditions on the original inputs
nevertheless force the trimmed tests to fail.) -/
theorem c2_between_rejects {B : Between} (hWF : B.WF) (thisS thatS : List Char)
    (h : lexLt thisS thatS = false ∨ B.valid thatS = false ∨
      (thisS ≠ [] ∧ B.valid thisS = false)) :
    B.between thisS thatS = none := by
  cases hb : B.between thisS thatS with
  | none => rfl
  | some s =>
    exfalso
    obtain ⟨hlt, hvt, hvu, _⟩ := between_some_inv hb
    obtain ⟨k, hk⟩ := trimEnd_eq_append B.low thisS
    obtain ⟨m, hm⟩ := trimEnd_eq_append B.low thatS
    obtain ⟨hune, humem⟩ := (valid_iff B _).mp hvu
    -- the original inputs do compare strictly and are valid where required
    have horig_lt : lexLt thisS thatS = true := by
      have h1 : lexLt (trimEnd B.low thisS ++ List.replicate k B.low)
          (trimEnd B.low thatS) = true :=
        lexLt_append_replicate_left B.low k
          (fun c hc => wf_low_le hWF c (humem c hc))
          (fun c hc => trimEnd_getLast?_ne B.low thatS hc) hlt
      rw [← hk] at h1
      have h2 := lexLt_append_right (List.replicate m B.low) h1
      rw [← hm] at h2
      exact h2
    have horig_vu : B.valid thatS = true := by
      rw [hm]
      refine (valid_iff B _).mpr ⟨?_, ?_⟩
      · intro hcon
        rcases List.append_eq_nil.mp hcon with ⟨hu0, _⟩
        exact hune hu0
      · intro c hc
        rcases List.mem_append.mp hc with hc1 | hc1
        · exact humem c hc1
        · rw [(List.eq_of_mem_replicate hc1)]
          exact wf_low_mem hWF
    have horig_vt : thisS ≠ [] → B.valid thisS = true := by
      intro hne
      refine (valid_iff B _).mpr ⟨hne, ?_⟩
      rcases hvt with ht0 | htv
      · rw [ht0] at hk
        rw [List.nil_append] at hk
        intro c hc
        rw [hk] at hc
        rw [(List.eq_of_mem_replicate hc)]
        exact wf_low_mem hWF
      · obtain ⟨_, htmem⟩ := (valid_iff B _).mp htv
        intro c hc
        rw [hk] at hc
        rcases List.mem_append.mp hc with hc1 | hc1
        · exact htmem c hc1
        · rw [(List.eq_of_mem_replicate hc1)]
          exact wf_low_mem hWF
    rcases h with h1 | h1 | ⟨h1, h2⟩
    · rw [horig_lt] at h1
      exact Bool.false_ne_true h1.symm
    · rw [horig_vu] at h1
      exact Bool.false_ne_true h1.symm
    · rw [horig_vt h1] at h2
      exact Bool.false_ne_true h2.symm

theorem c2_between_rejects_witness :
    B01.WF ∧ lexLt ['1'] ['0'] = false ∧ B01.between ['1'] ['0'] = none :=
  ⟨⟨by decide, by decide, rfl, rfl⟩, by decide,
    c2_between_rejects ⟨by decide, by decide, rfl, rfl⟩ ['1'] ['0']
      (Or.inl (by decide))⟩

lemma betweenGo_succ (B : Between) (tC uC : List Char) (gml fuel idx : Nat)
    (acc : List Char) :
    betweenGo B tC uC gml (fuel + 1) idx acc =
      (let a := B.chars.indexOf (tC.getD idx B.low)
       let b := B.chars.indexOf (uC.getD idx B.high)
       let c := B.chars.getD (candPos a b gml idx) B.low
       if lexLt tC (acc ++ [c]) && lexLt (acc ++ [c]) uC && c != B.low
       then some (acc ++ [c])
       else betweenGo B tC uC gml fuel (idx + 1) (acc ++ [c])) := rfl

/-- C10 (implicit): whenever `between this that` returns `Some s`, the
number of characters of `s` is at most `len(this') + len(that') + 1`,
where `this'`/`that'` are the low-trimmed inputs and `len` is the length
measure the code uses for the loop guard (Rust `String::len`, i.e. UTF-8
byte length, computed here by `byteLen`): the loop appends exactly one
character per iteration, starts at index 0 and stops at the guard. -/
theorem c10_result_length_bound {B : Between} (thisS thatS s : List Char)
    (h : B.between thisS thatS = some s) :
    s.length ≤ byteLen (trimEnd B.low thisS) + byteLen (trimEnd B.low thatS) + 1 := by
  obtain ⟨_, _, _, hloop⟩ := between_some_inv h
  have hlen := betweenGo_length _ 0 [] s hloop
  simpa using hlen

theorem c10_result_length_bound_witness :
    Between.init.between ['A'] ['B'] = some ['A', 'V'] ∧
      (['A', 'V'] : List Char).length ≤
        byteLen (trimEnd Between.init.low ['A']) +
          byteLen (trimEnd Between.init.low ['B']) + 1 :=
  ⟨by decide, c10_result_length_bound ['A'] ['B'] ['A', 'V'] (by decide)⟩

/-- C8 (implicit): appending any number of copies of the low symbol to
either argument never changes the result of `between` — the inputs are
low-trimmed before anything else happens.  This holds for every `Between`
value, well-formed or not. -/
theorem c8_low_padding_invariant (B : Between) (thisS thatS : List Char) (k : Nat) :
    B.between (thisS ++ List.replicate k B.low) thatS = B.between thisS thatS ∧
      B.between thisS (thatS ++ List.replicate k B.low) = B.between thisS thatS := by
  constructor <;> simp only [Between.between, trimEnd_append_replicate]

/-- C3 (amended): the construction loop of `between` walks its index from 0
up to a hard ceiling `guard` that equals `len(this') + len(that')` where
`this'`/`that'` are the trimmed inputs and `len` is Rust's `String::len`
— the UTF-8 *byte* length (`byteLen`), not the code-point count; the loop
is entered with exactly `guard + 1` iterations of budget, a run that
exhausts the budget returns `None`, and consequently any returned string
has at most `guard + 1` characters. -/
theorem c3_loop_guard {B : Between} (thisS thatS : List Char) :
    (B.between thisS thatS = none ∨
      B.between thisS thatS =
        betweenGo B (trimEnd B.low thisS) (trimEnd B.low thatS)
          (max (byteLen (trimEnd B.low thisS)) (byteLen (trimEnd B.low thatS)))
          (byteLen (trimEnd B.low thisS) + byteLen (trimEnd B.low thatS) + 1)
          0 []) ∧
    (∀ gml idx acc, betweenGo B (trimEnd B.low thisS) (trimEnd B.low thatS)
        gml 0 idx acc = none) ∧
    (∀ s, B.between thisS thatS = some s →
      s.length ≤
        byteLen (trimEnd B.low thisS) + byteLen (trimEnd B.low thatS) + 1) := by
  refine ⟨?_, fun gml idx acc => rfl, ?_⟩
  · rw [Between.between]
    split
    · exact Or.inl rfl
    · exact Or.inr rfl
  · intro s h
    obtain ⟨_, _, _, hloop⟩ := between_some_inv h
    have hlen := betweenGo_length _ 0 [] s hloop
    simpa using hlen

theorem c3_loop_guard_witness :
    Bgreek.between ['β'] ['β', 'β'] = some ['β', 'α', 'α', 'α', 'β'] ∧
      (['β', 'α', 'α', 'α', 'β'] : List Char).length ≤
        byteLen (trimEnd Bgreek.low ['β']) +
          byteLen (trimEnd Bgreek.low ['β', 'β']) + 1 :=
  ⟨by decide, (c3_loop_guard ['β'] ['β', 'β']).2.2 ['β', 'α', 'α', 'α', 'β']
    (by decide)⟩

/-- C3 counterexample: over the alphabet `{α, β}` (two-byte characters),
with a guard equal to the *code-point* lengths of the trimmed inputs the
search would exhaust its budget and return `None` on
`between "β" "ββ"` — but the code, whose guard is the UTF-8 byte length,
returns the 5-character string `"βαααβ"`.  A result of 5 characters means
the loop index reached 4, strictly above the claimed code-point ceiling
`len("β") + len("ββ") = 3`. -/
theorem c3_loop_guard_counterexample :
    betweenCpGuard Bgreek ['β'] ['β', 'β'] = none ∧
      Bgreek.between ['β'] ['β', 'β'] = some ['β', 'α', 'α', 'α', 'β'] ∧
      (['β'] : List Char).length + (['β', 'β'] : List Char).length + 1 <
        (['β', 'α', 'α', 'α', 'β'] : List Char).length :=
  ⟨by decide, by decide, by decide⟩

/-- C4 counterexample: the default character set has 65 characters, not 66
as claimed. -/
theorem c4_default_counterexample :
    Between.init.chars.length = 65 ∧ Between.init.chars.length ≠ 66 :=
  ⟨by decide, by decide⟩

/-- C4 (amended): the default construction (`init` / `Default`) builds its
alphabet from the fixed **65**-character set `!`, `0`–`9`, `A`–`Z`, `_`,
`a`–`z`, `~` (the literal in the source), sorted strictly ascending by code
point, with `!` as the low symbol and `~` as the high symbol. -/
theorem c4_default_alphabet :
    Between.init.chars = defaultChars ∧
      List.Sorted (· < ·) Between.init.chars ∧
      Between.init.chars.length = 65 ∧
      Between.init.low = '!' ∧ Between.init.high = '~' :=
  ⟨by decide, by decide, by decide, by decide, by decide⟩

/-- C7: on the default alphabet, `between "A" "B"` returns `Some "AV"`,
and `'V'` is precisely the symbol at the rounded arithmetic midpoint
(`specMid`) between rank 0 — the rank of the implicit trailing low symbol
`'!'` padding `"A"` — and rank 64 — the rank of the implicit trailing high
symbol `'~'` padding `"B"`. -/
theorem c7_between_A_B :
    Between.init.between ['A'] ['B'] = some ['A', 'V'] ∧
      Between.init.chars.indexOf Between.init.low = 0 ∧
      Between.init.chars.indexOf Between.init.high = 64 ∧
      specMid 0 64 = 32 ∧
      Between.init.chars.getD 32 '!' = 'V' :=
  ⟨by decide, by decide, by decide, by decide, by decide⟩

/-- C5 (amended): at each position of the construction loop, with `a` the
rank of `this`'s character there (rank 0, the low rank, when `this` has no
character there) and `b` the rank of `that`'s character (the last rank when
`that` has none): the chosen candidate rank is the rounded arithmetic
midpoint `specMid a b = round((a+b)/2)` when `b - a > 1` or the position is
at or beyond `guard_max_len` — which the code computes as the maximum of
the UTF-8 *byte* lengths of the two trimmed inputs, not of their
code-point lengths — and is `this`'s own rank `a` otherwise. -/
theorem c5_candidate_selection :
    (∀ a b gml idx, candPos a b gml idx =
        if 1 < b - a ∨ gml ≤ idx then specMid a b else a) ∧
      (∀ (B : Between), B.WF → ∀ (tC : List Char) (idx : Nat),
        tC.length ≤ idx → B.chars.indexOf (tC.getD idx B.low) = 0) ∧
      (∀ (B : Between), B.WF → ∀ (uC : List Char) (idx : Nat),
        uC.length ≤ idx →
          B.chars.indexOf (uC.getD idx B.high) = B.chars.length - 1) := by
  refine ⟨?_, ?_, ?_⟩
  · intro a b gml idx
    unfold candPos specMid
    by_cases hc : a + 1 < b ∨ gml ≤ idx
    · rw [if_pos (by simpa using hc), if_pos (by omega)]
      split <;> omega
    · rw [if_neg (by simpa using hc), if_neg (by omega)]
  · intro B hWF tC idx hle
    rw [List.getD_eq_default _ _ hle]
    exact wf_indexOf_low hWF
  · intro B hWF uC idx hle
    rw [List.getD_eq_default _ _ hle]
    exact wf_indexOf_high hWF

theorem c5_candidate_selection_witness :
    (candPos 0 1 4 2 = if 1 < 1 - 0 ∨ 4 ≤ 2 then specMid 0 1 else 0) ∧
      B01.WF ∧
      B01.chars.indexOf (([] : List Char).getD 0 B01.low) = 0 ∧
      B01.chars.indexOf ((['1'] : List Char).getD 1 B01.high)
        = B01.chars.length - 1 :=
  ⟨c5_candidate_selection.1 0 1 4 2, ⟨by decide, by decide, rfl, rfl⟩,
    c5_candidate_selection.2.1 B01 ⟨by decide, by decide, rfl, rfl⟩ [] 0
      (by decide),
    c5_candidate_selection.2.2 B01 ⟨by decide, by decide, rfl, rfl⟩ ['1'] 1
      (le_refl 1)⟩

/-- C5 counterexample: over `{α, β}` with `this = "β"`, `that = "ββ"`, the
claim's reading — positions compared against the code-point length 2 of the
longer trimmed input — would take the midpoint branch at position 2 and
produce `"βαβ"` (computed by `betweenCpMaxLen`), but the code compares the
position against the byte length 4 and keeps appending `this`'s own rank,
producing `"βαααβ"`. -/
theorem c5_candidate_selection_counterexample :
    Bgreek.between ['β'] ['β', 'β'] = some ['β', 'α', 'α', 'α', 'β'] ∧
      betweenCpMaxLen Bgreek ['β'] ['β', 'β'] = some ['β', 'α', 'β'] ∧
      Bgreek.between ['β'] ['β', 'β'] ≠ betweenCpMaxLen Bgreek ['β'] ['β', 'β'] :=
  ⟨by decide, by decide, by decide⟩

lemma trimEnd_replicate_ne {lowc c : Char} (hne : c ≠ lowc) (m : Nat) :
    trimEnd lowc (List.replicate m c) = List.replicate m c := by
  unfold trimEnd
  rw [List.reverse_replicate]
  cases m with
  | zero => rfl
  | succ j =>
    rw [List.replicate_succ, List.dropWhile_cons,
      if_neg (by simp [beq_eq_false_iff_ne.mpr hne]), ← List.replicate_succ,
      List.reverse_replicate]

lemma lexLt_replicate_single {c : Char} (m : Nat) (hm : 1 ≤ m) :
    lexLt (List.replicate m c) [c] = false := by
  cases m with
  | zero => omega
  | succ j =>
    rw [List.replicate_succ]
    simp [lexLt, lexLt_nil_right]

/-- C6: for every alphabet built from at least two distinct characters,
`after` of any string of one or more repetitions of the high symbol is
`None`, and `before` of any string of zero or more repetitions of the low
symbol is `None` — in particular `before ""` is always `None`. -/
theorem c6_after_before_boundaries {B : Between} (hWF : B.WF) :
    (∀ m, 1 ≤ m → B.after (List.replicate m B.high) = none) ∧
      (∀ k, B.before (List.replicate k B.low) = none) := by
  have hhl : B.high ≠ B.low := ne_of_gt (wf_low_lt_high hWF)
  constructor
  · intro m hm
    rw [Between.after, Between.between]
    have h1 : trimEnd B.low (List.replicate m B.high) = List.replicate m B.high :=
      trimEnd_replicate_ne hhl m
    have h2 : trimEnd B.low [B.high] = [B.high] := by
      have := trimEnd_replicate_ne hhl 1
      simpa using this
    rw [if_pos]
    rw [h1, h2, lexLt_replicate_single m hm]
    simp
  · intro k
    rw [Between.before, Between.between]
    have h1 : trimEnd B.low (List.replicate k B.low) = [] := trimEnd_replicate B.low k
    rw [if_pos]
    rw [h1]
    have h2 : B.valid [] = false := rfl
    rw [h2]
    simp

theorem c6_after_before_boundaries_witness :
    B01.WF ∧ B01.after (List.replicate 1 B01.high) = none ∧
      B01.before (List.replicate 0 B01.low) = none :=
  ⟨⟨by decide, by decide, rfl, rfl⟩,
    (c6_after_before_boundaries ⟨by decide, by decide, rfl, rfl⟩).1 1 (le_refl 1),
    (c6_after_before_boundaries ⟨by decide, by decide, rfl, rfl⟩).2 0⟩

lemma headI_eq_get (l : List Char) (h0 : 0 < l.length) :
    l.headI = l.get ⟨0, h0⟩ := by
  cases l with
  | nil => simp at h0
  | cons a as => rfl

lemma getLastI_eq_get (l : List Char) (h0 : 0 < l.length) :
    l.getLastI = l.get ⟨l.length - 1, by omega⟩ := by
  have hne : l ≠ [] := List.ne_nil_of_length_pos h0
  rw [List.getLastI_eq_getLast?, List.getLast?_eq_getLast l hne, Option.iget_some,
    List.getLast_eq_getElem, List.get_eq_getElem]

lemma getD_eq_get (l : List Char) (d : Char) (i : Nat) (h : i < l.length) :
    l.getD i d = l.get ⟨i, h⟩ := by
  rw [List.getD_eq_getElem?_getD, List.getElem?_eq_getElem h, Option.getD_some,
    List.get_eq_getElem]

lemma betweenGo_succ_eq (B : Between) (tC uC : List Char) (gml fuel idx : Nat)
    (acc : List Char) (a b : Nat) (c : Char)
    (ha : B.chars.indexOf (tC.getD idx B.low) = a)
    (hb : B.chars.indexOf (uC.getD idx B.high) = b)
    (hc : B.chars.getD (candPos a b gml idx) B.low = c) :
    betweenGo B tC uC gml (fuel + 1) idx acc =
      if lexLt tC (acc ++ [c]) && lexLt (acc ++ [c]) uC && c != B.low
      then some (acc ++ [c])
      else betweenGo B tC uC gml fuel (idx + 1) (acc ++ [c]) := by
  subst ha
  subst hb
  subst hc
  rfl

lemma betweenGo_two_char (B : Between) (x y : Char) (hcc : B.chars = [x, y])
    (hlow : B.low = x) (hhigh : B.high = y) (hxy : x < y)
    (hsz : Nat) (hsz1 : 1 ≤ hsz) :
    ∀ d idx, idx + d = hsz →
      betweenGo B [] [y] hsz (d + 1) idx (List.replicate idx x)
        = some (List.replicate hsz x ++ [y]) := by
  have hyx : y ≠ x := ne_of_gt hxy
  have ha : ∀ i, B.chars.indexOf (([] : List Char).getD i B.low) = 0 := by
    intro i
    rw [List.getD_nil, hcc, hlow, List.indexOf_cons_self]
  have hb : ∀ i, B.chars.indexOf (([y] : List Char).getD i B.high) = 1 := by
    intro i
    have hval : ([y] : List Char).getD i B.high = y := by
      cases i with
      | zero => rfl
      | succ j =>
        rw [List.getD_eq_default _ _ (by simp), hhigh]
    rw [hval, hcc, List.indexOf_cons_ne _ (Ne.symm hyx), List.indexOf_cons_self]
  intro d
  induction d with
  | zero =>
    intro idx hidx
    have hidx2 : idx = hsz := by omega
    subst hidx2
    rw [betweenGo_succ_eq B [] [y] idx 0 idx (List.replicate idx x) 0 1 y
      (ha idx) (hb idx) ?hc]
    case hc =>
      have hcp : candPos 0 1 idx idx = 1 := by
        unfold candPos
        rw [if_pos (by simp)]
      rw [hcp, hcc]
      rfl
    have hA : lexLt [] (List.replicate idx x ++ [y]) = true :=
      lexLt_nil_left (by simp)
    have hB : lexLt (List.replicate idx x ++ [y]) [y] = true := by
      obtain ⟨j, hj⟩ : ∃ j, idx = j + 1 := ⟨idx - 1, by omega⟩
      rw [hj, List.replicate_succ, List.cons_append]
      exact lexLt_cons_cons.mpr (Or.inl hxy)
    have hC : (y != B.low) = true := by
      rw [hlow]
      exact bne_iff_ne.mpr hyx
    rw [if_pos (by simp [hA, hB, hC])]
  | succ d ih =>
    intro idx hidx
    rw [betweenGo_succ_eq B [] [y] hsz (d + 1) idx (List.replicate idx x) 0 1 x
      (ha idx) (hb idx) ?hc2]
    case hc2 =>
      have hcp : candPos 0 1 hsz idx = 0 := by
        unfold candPos
        rw [if_neg]
        simp only [Bool.or_eq_true, decide_eq_true_iff, not_or]
        omega
      rw [hcp, hcc, hlow]
      rfl
    rw [if_neg]
    · rw [← List.replicate_succ']
      exact ih (idx + 1) (by omega)
    · rw [hlow]
      simp

/-- C9 (implicit): for every alphabet built from at least two distinct
symbols, `after ""` returns `Some` — the empty string acts as a universal
lower bound that always has a successor. -/
theorem c9_after_empty_some {B : Between} (hWF : B.WF) :
    ∃ s, B.after [] = some s := by
  have hWF2 := hWF
  have hhl : B.high ≠ B.low := ne_of_gt (wf_low_lt_high hWF)
  have htrim : trimEnd B.low [B.high] = [B.high] := by
    simpa using trimEnd_replicate_ne hhl 1
  have hvalid : B.valid [B.high] = true :=
    (valid_iff B _).mpr ⟨by simp, by
      intro c hc
      rw [List.mem_singleton.mp hc]
      exact wf_high_mem hWF⟩
  rw [Between.after, Between.between]
  rw [if_neg ?hneg]
  case hneg =>
    rw [trimEnd_nil, htrim, hvalid]
    simp [lexLt]
  rw [trimEnd_nil, htrim]
  have hbyte0 : byteLen ([] : List Char) = 0 := rfl
  have hbyte1 : byteLen [B.high] = B.high.utf8Size := by simp [byteLen]
  rw [hbyte0, hbyte1, max_eq_right (Nat.zero_le _), Nat.zero_add]
  obtain ⟨hsorted, hlen2, hl, hh⟩ := hWF2
  by_cases hN : 3 ≤ B.chars.length
  · -- three or more symbols: the very first iteration succeeds with the
    -- midpoint symbol chars[length / 2]
    obtain ⟨f0, hf0⟩ : ∃ f0, B.high.utf8Size = f0 + 1 :=
      ⟨B.high.utf8Size - 1, by have := Char.utf8Size_pos B.high; omega⟩
    rw [hf0]
    have hN2lt : B.chars.length / 2 < B.chars.length :=
      Nat.div_lt_self (by omega) (by omega)
    have hN2pos : 0 < B.chars.length / 2 := by omega
    have hN2hi : B.chars.length / 2 < B.chars.length - 1 := by omega
    have ha : B.chars.indexOf (([] : List Char).getD 0 B.low) = 0 := by
      rw [List.getD_nil]
      exact wf_indexOf_low hWF
    have hb : B.chars.indexOf (([B.high] : List Char).getD 0 B.high)
        = B.chars.length - 1 := wf_indexOf_high hWF
    have hcand : candPos 0 (B.chars.length - 1) B.high.utf8Size 0
        = B.chars.length / 2 := by
      unfold candPos
      rw [if_pos (by simp only [Bool.or_eq_true, decide_eq_true_iff]; omega)]
      omega
    have hc : B.chars.getD
        (candPos 0 (B.chars.length - 1) B.high.utf8Size 0) B.low
        = B.chars.get ⟨B.chars.length / 2, hN2lt⟩ := by
      rw [hcand]
      exact getD_eq_get _ _ _ hN2lt
    rw [hf0] at hc
    rw [betweenGo_succ_eq B [] [B.high] (f0 + 1) (f0 + 1) 0 []
      0 (B.chars.length - 1) (B.chars.get ⟨B.chars.length / 2, hN2lt⟩) ha hb hc]
    have hlowget : B.low = B.chars.get ⟨0, by omega⟩ :=
      hl.trans (headI_eq_get _ (by omega))
    have hhighget : B.high = B.chars.get ⟨B.chars.length - 1, by omega⟩ :=
      hh.trans (getLastI_eq_get _ (by omega))
    have hmono := List.Sorted.get_strictMono hsorted
    have hA : lexLt [] ([] ++ [B.chars.get ⟨B.chars.length / 2, hN2lt⟩])
        = true := lexLt_nil_left (by simp)
    have hB : lexLt ([] ++ [B.chars.get ⟨B.chars.length / 2, hN2lt⟩]) [B.high]
        = true := by
      rw [List.nil_append]
      refine lexLt_cons_cons.mpr (Or.inl ?_)
      rw [hhighget]
      exact hmono (Fin.mk_lt_mk.mpr hN2hi)
    have hC : (B.chars.get ⟨B.chars.length / 2, hN2lt⟩ != B.low) = true := by
      refine bne_iff_ne.mpr ?_
      rw [hlowget]
      exact ne_of_gt (hmono (Fin.mk_lt_mk.mpr hN2pos))
    rw [if_pos (by rw [Bool.and_eq_true, Bool.and_eq_true]; exact ⟨⟨hA, hB⟩, hC⟩)]
    exact ⟨_, rfl⟩
  · -- exactly two symbols: the loop pads with the low symbol until the
    -- byte-length guard is reached, then appends the high symbol
    have hlen : B.chars.length = 2 := by omega
    obtain ⟨x, y, hcc⟩ := List.length_eq_two.mp hlen
    have hlow : B.low = x := by rw [hl, hcc]; rfl
    have hhigh : B.high = y := by rw [hh, hcc]; rfl
    have hxy : x < y := by
      rw [hcc] at hsorted
      exact List.rel_of_sorted_cons hsorted y (by simp)
    refine ⟨List.replicate B.high.utf8Size x ++ [y], ?_⟩
    have hrun := betweenGo_two_char B x y hcc hlow hhigh hxy B.high.utf8Size
      (Char.utf8Size_pos _) B.high.utf8Size 0 (by omega)
    rw [List.replicate] at hrun
    rw [hhigh] at hrun
    rw [hhigh]
    exact hrun

theorem c9_after_empty_some_witness :
    B01.WF ∧ ∃ s, B01.after [] = some s :=
  ⟨⟨by decide, by decide, rfl, rfl⟩,
    c9_after_empty_some ⟨by decide, by decide, rfl, rfl⟩⟩
